import Mathlib

/-!
Shallow embedding of the duplicate-company-name pipeline
(src/duplicate_finder.py together with src/main.py).

Strings are modelled as lists of characters; the character classes of the
regular expressions and of str.lower / str.split / str.strip are modelled at
the ASCII level, which covers every input appearing in the specification.
-/

set_option maxRecDepth 8000
set_option linter.unusedVariables false

namespace DupFinder

/-- Python str.lower, modelled at the ASCII level: codepoints 65-90 are
shifted by 32 to the matching lowercase letter, all other characters kept. -/
def lowerChar (c : Char) : Char :=
  if 65 ≤ c.toNat ∧ c.toNat ≤ 90 then Char.ofNat (c.toNat + 32) else c

/-- name.lower() in _clean_name_. -/
def pyLower (s : List Char) : List Char := s.map lowerChar

/-- Word characters of the regex class backslash-w used in
PUNCTUATION_PATTERN, modelled at the ASCII level: letters, digits and the
underscore. -/
def isWordChar (c : Char) : Bool :=
  (97 ≤ c.toNat && c.toNat ≤ 122) || (65 ≤ c.toNat && c.toNat ≤ 90) ||
    (48 ≤ c.toNat && c.toNat ≤ 57) || c == '_'

/-- Whitespace characters of the regex class backslash-s and of str.split and
str.strip, modelled at the ASCII level. -/
def isSpaceChar (c : Char) : Bool :=
  c == ' ' || c == '\t' || c == '\n' || c == '\r' || c == '\x0b' || c == '\x0c'

/-- re.sub(URL_PATTERN, "", s) for
URL_PATTERN = r"www\.|\.(?:com|org|net)": a single left-to-right pass; at
each position the four literal alternatives are tried, a match is deleted and
scanning resumes after it, otherwise the character is kept. -/
def stripUrl : List Char → List Char
  | 'w' :: 'w' :: 'w' :: '.' :: rest => stripUrl rest
  | '.' :: 'c' :: 'o' :: 'm' :: rest => stripUrl rest
  | '.' :: 'o' :: 'r' :: 'g' :: rest => stripUrl rest
  | '.' :: 'n' :: 'e' :: 't' :: rest => stripUrl rest
  | c :: rest => c :: stripUrl rest
  | [] => []

/-- re.sub(PUNCTUATION_PATTERN, " ", s) for PUNCTUATION_PATTERN = the class
of characters that are neither word characters nor whitespace: each such
character is replaced by a single space. -/
def subPunct (s : List Char) : List Char :=
  s.map (fun c => if isWordChar c || isSpaceChar c then c else ' ')

/-- Accumulator loop behind pySplit; acc holds the current token reversed. -/
def pySplitAux : List Char → List Char → List (List Char)
  | [], acc => if acc = [] then [] else [acc.reverse]
  | c :: cs, acc =>
    if isSpaceChar c then
      if acc = [] then pySplitAux cs [] else acc.reverse :: pySplitAux cs []
    else pySplitAux cs (c :: acc)

/-- str.split() with no argument: split on whitespace runs, discarding empty
tokens. -/
def pySplit (s : List Char) : List (List Char) := pySplitAux s []

/-- " ".join(ws). -/
def joinSp : List (List Char) → List Char
  | [] => []
  | [w] => w
  | w :: ws => w ++ ' ' :: joinSp ws

/-- The tokens surviving the removal-word filter inside _clean_name_:
split the punctuation-free, URL-free, lowercased name and keep the tokens
that are not members of the removal-word set. -/
def normTokens (rw : List (List Char)) (name : List Char) : List (List Char) :=
  (pySplit (subPunct (stripUrl (pyLower name)))).filter (fun w => decide (w ∉ rw))

/-- DuplicateFinder._clean_name_. -/
def clean_name (rw : List (List Char)) (name : List Char) : List Char :=
  joinSp (normTokens rw name)

/-- The Company dataclass. -/
structure Company where
  original_name : List Char
  cleaned_name : List Char
deriving DecidableEq, Inhabited, Repr

/-- str.strip(): drop whitespace at both ends. -/
def pyStrip (s : List Char) : List Char :=
  ((s.dropWhile isSpaceChar).reverse.dropWhile isSpaceChar).reverse

/-- DuplicateFinder._read_companies_: one Company per nonempty stripped input
line, pairing the stripped original with its cleaned name. -/
def read_companies (rw : List (List Char)) (ls : List (List Char)) : List Company :=
  ls.filterMap (fun line =>
    let name := pyStrip line
    if name = [] then none else some ⟨name, clean_name rw name⟩)

/-- One step of the defaultdict loop in _find_duplicates_: append the company
to the entry holding its cleaned name, or create a new entry at the end
(dict insertion order). -/
def addToGroups : List (List Char × List Company) → Company →
    List (List Char × List Company)
  | [], c => [(c.cleaned_name, [c])]
  | (k, v) :: rest, c =>
    if k = c.cleaned_name then (k, v ++ [c]) :: rest else (k, v) :: addToGroups rest c

/-- The fully built defaultdict, as an association list in key insertion
order. -/
def groupCompanies (cs : List Company) : List (List Char × List Company) :=
  cs.foldl addToGroups []

/-- DuplicateFinder._find_duplicates_: the groups of size at least two, in
key insertion order. -/
def findDupGroups (cs : List Company) : List (List Company) :=
  ((groupCompanies cs).map Prod.snd).filter (fun g => decide (1 < g.length))

/-- itertools.combinations(g, 2) in emission order. -/
def pairsOf : List α → List (α × α)
  | [] => []
  | x :: xs => (xs.map (fun y => (x, y))) ++ pairsOf xs

/-- One output line: the f-string "orig1, orig2" plus the newline written by
_write_output_. -/
def renderPair (p : Company × Company) : List Char :=
  p.1.original_name ++ (',' :: ' ' :: p.2.original_name) ++ ['\n']

/-- DuplicateFinder._write_output_ as the list of written lines. -/
def writeLines (groups : List (List Company)) : List (List Char) :=
  groups.flatMap (fun g => (pairsOf g).map renderPair)

/-- DuplicateFinder.find_duplicates: the pipeline from input lines to the
lines written to the output file. -/
def find_duplicates (rw : List (List Char)) (ls : List (List Char)) : List (List Char) :=
  writeLines (findDupGroups (read_companies rw ls))

/-- C1: with removal words inc, llc, the and input lines Acme Inc., ACME,
The Acme LLC, Zeta Corp, the three Acme variants all normalize to acme and
the pipeline emits exactly the three lines Acme Inc., ACME then
Acme Inc., The Acme LLC then ACME, The Acme LLC in that order, while the
singleton Zeta Corp group contributes no output line. -/
theorem scenario_acme :
    clean_name ["inc".toList, "llc".toList, "the".toList] "Acme Inc.".toList
        = "acme".toList ∧
      clean_name ["inc".toList, "llc".toList, "the".toList] "ACME".toList
        = "acme".toList ∧
      clean_name ["inc".toList, "llc".toList, "the".toList] "The Acme LLC".toList
        = "acme".toList ∧
      find_duplicates ["inc".toList, "llc".toList, "the".toList]
          ["Acme Inc.".toList, "ACME".toList, "The Acme LLC".toList,
            "Zeta Corp".toList]
        = ["Acme Inc., ACME\n".toList, "Acme Inc., The Acme LLC\n".toList,
            "ACME, The Acme LLC\n".toList] := by
  decide

/-- C8: with an empty removal-word set, www.foo.com and Foo both normalize
to foo (the literal www. and the dot before com are deleted, not replaced by
whitespace), and the pipeline emits exactly the single line
www.foo.com, Foo. -/
theorem scenario_url :
    clean_name [] "www.foo.com".toList = "foo".toList ∧
      clean_name [] "Foo".toList = "foo".toList ∧
      find_duplicates [] ["www.foo.com".toList, "Foo".toList]
        = ["www.foo.com, Foo\n".toList] := by
  decide

/-- The index pairs i < j below n, first index ascending and then second
index ascending: the combination order the specification prescribes for
emission. -/
def idxPairs (n : Nat) : List (Nat × Nat) :=
  (List.range n).flatMap (fun i =>
    (List.range n).filterMap (fun j => if i < j then some (i, j) else none))

theorem map_getD_range (l : List α) (d : α) :
    (List.range l.length).map (fun j => l.getD j d) = l := by
  induction l with
  | nil => rfl
  | cons x xs ih =>
    rw [List.length_cons, List.range_succ_eq_map, List.map_cons, List.map_map]
    refine congrArg (List.cons x) ?_
    have h : ((fun j => (x :: xs).getD j d) ∘ Nat.succ) = fun j => xs.getD j d := by
      funext j
      simp [Function.comp]
    rw [h, ih]

theorem idxPairs_succ (n : Nat) :
    idxPairs (n + 1) =
      ((List.range n).map (fun j => (0, j + 1))) ++
        (idxPairs n).map (fun p => (p.1 + 1, p.2 + 1)) := by
  unfold idxPairs
  rw [List.range_succ_eq_map, List.flatMap_cons, List.flatMap_map]
  congr 1
  · rw [List.filterMap_cons_none (by simp), List.filterMap_map]
    have h : ((fun j => if 0 < j then some ((0 : Nat), j) else none) ∘ Nat.succ)
        = some ∘ (fun j => ((0 : Nat), j + 1)) := by
      funext j
      simp [Function.comp]
    rw [h, List.filterMap_eq_map]
  · rw [List.map_flatMap]
    refine List.flatMap_congr ?_
    intro i _
    rw [List.filterMap_cons_none (by simp), List.filterMap_map,
      List.map_filterMap]
    refine List.filterMap_congr ?_
    intro j _
    by_cases hij : i < j
    · simp [Function.comp, hij, Nat.succ_eq_add_one, Nat.succ_lt_succ_iff]
    · simp [Function.comp, hij, Nat.succ_eq_add_one, Nat.succ_lt_succ_iff]

theorem pairsOf_eq_idxPairs (g : List α) (d : α) :
    pairsOf g = (idxPairs g.length).map (fun p => (g.getD p.1 d, g.getD p.2 d)) := by
  induction g with
  | nil => rfl
  | cons x xs ih =>
    rw [List.length_cons, idxPairs_succ, List.map_append, List.map_map, List.map_map]
    show (xs.map fun y => (x, y)) ++ pairsOf xs = _
    congr 1
    have h : ((fun p : Nat × Nat => ((x :: xs).getD p.1 d, (x :: xs).getD p.2 d)) ∘
        (fun j => (0, j + 1))) = (fun y => (x, y)) ∘ (fun j => xs.getD j d) := by
      funext j
      simp [Function.comp]
    rw [h, ← List.map_map, map_getD_range]

theorem two_mul_length_pairsOf (g : List α) :
    2 * (pairsOf g).length = g.length * (g.length - 1) := by
  induction g with
  | nil => rfl
  | cons x xs ih =>
    show 2 * ((xs.map fun y => (x, y)) ++ pairsOf xs).length = _
    rw [List.length_append, List.length_map, Nat.mul_add, ih, List.length_cons]
    cases xs with
    | nil => rfl
    | cons y ys =>
      rw [List.length_cons, Nat.add_sub_cancel, Nat.add_sub_cancel]
      ring

/-- C2: for every retained group g of size n, emission produces exactly the
pairs of members at index pairs i < j, each unordered pair exactly once, in
index-combination order (first index ascending, then second), and there are
exactly n * (n - 1) / 2 of them. -/
theorem emission_pairs (cs : List Company) (g : List Company)
    (hg : g ∈ findDupGroups cs) :
    pairsOf g = (idxPairs g.length).map
        (fun p => (g.getD p.1 default, g.getD p.2 default)) ∧
      (pairsOf g).length = g.length * (g.length - 1) / 2 := by
  refine ⟨pairsOf_eq_idxPairs g default, ?_⟩
  have h := two_mul_length_pairsOf g
  generalize hk : g.length * (g.length - 1) = k at h ⊢
  omega

/-- A three-member single-key company list used to instantiate the emission
theorem. -/
def wCs : List Company :=
  [⟨"a".toList, "k".toList⟩, ⟨"b".toList, "k".toList⟩, ⟨"c".toList, "k".toList⟩]

/-- Witness for the emission theorem at a concrete retained group of size 3. -/
theorem emission_pairs_witness :
    pairsOf wCs = (idxPairs wCs.length).map
        (fun p => (wCs.getD p.1 default, wCs.getD p.2 default)) ∧
      (pairsOf wCs).length = wCs.length * (wCs.length - 1) / 2 :=
  emission_pairs wCs wCs (by decide)

/-- Following the words of the specification: a key is inserted at the end of
the key list when it has not been seen before. -/
def insertKey (ks : List (List Char)) (k : List Char) : List (List Char) :=
  if k ∈ ks then ks else ks ++ [k]

/-- Following the words of the specification: the distinct cleaned names in
order of first occurrence in the input. -/
def seenKeys (cs : List Company) : List (List Char) :=
  cs.foldl (fun ks c => insertKey ks c.cleaned_name) []

/-- Following the words of the specification: the companies whose cleaned
name is k, in the order their records were encountered. -/
def keyFilter (cs : List Company) (k : List Char) : List Company :=
  cs.filter (fun c => decide (c.cleaned_name = k))

theorem mem_insertKey (ks : List (List Char)) (k k' : List Char) :
    k ∈ insertKey ks k' ↔ k ∈ ks ∨ k = k' := by
  unfold insertKey
  split
  · rename_i h
    constructor
    · exact Or.inl
    · rintro (hk | rfl)
      · exact hk
      · exact h
  · simp

theorem nodup_insertKey (ks : List (List Char)) (k : List Char)
    (h : ks.Nodup) : (insertKey ks k).Nodup := by
  unfold insertKey
  split
  · exact h
  · rename_i hk
    simp [List.nodup_append, h, hk]

theorem mem_foldl_insertKey (cs : List Company) (ks : List (List Char))
    (k : List Char) :
    (k ∈ cs.foldl (fun ks c => insertKey ks c.cleaned_name) ks ↔
      k ∈ ks ∨ ∃ c ∈ cs, c.cleaned_name = k) := by
  induction cs generalizing ks with
  | nil => simp
  | cons c cs ih =>
    rw [List.foldl_cons, ih, mem_insertKey]
    constructor
    · rintro ((hk | hk) | hc)
      · exact Or.inl hk
      · exact Or.inr ⟨c, List.mem_cons_self c cs, hk.symm⟩
      · obtain ⟨c', hc', hk'⟩ := hc
        exact Or.inr ⟨c', List.mem_cons_of_mem c hc', hk'⟩
    · rintro (hk | ⟨c', hc', hk'⟩)
      · exact Or.inl (Or.inl hk)
      · rcases List.mem_cons.mp hc' with rfl | hc'
        · exact Or.inl (Or.inr hk'.symm)
        · exact Or.inr ⟨c', hc', hk'⟩

theorem mem_seenKeys (cs : List Company) (k : List Char) :
    k ∈ seenKeys cs ↔ ∃ c ∈ cs, c.cleaned_name = k := by
  rw [seenKeys, mem_foldl_insertKey]
  simp

theorem nodup_foldl_insertKey (cs : List Company) (ks : List (List Char))
    (h : ks.Nodup) :
    (cs.foldl (fun ks c => insertKey ks c.cleaned_name) ks).Nodup := by
  induction cs generalizing ks with
  | nil => exact h
  | cons c cs ih => exact ih _ (nodup_insertKey _ _ h)

theorem nodup_seenKeys (cs : List Company) : (seenKeys cs).Nodup :=
  nodup_foldl_insertKey cs [] List.nodup_nil

theorem addToGroups_mem_key (ks : List (List Char)) (g : List Char → List Company)
    (c : Company) (hmem : c.cleaned_name ∈ ks) (hnd : ks.Nodup) :
    addToGroups (ks.map (fun k => (k, g k))) c =
      ks.map (fun k => (k, g k ++ if c.cleaned_name = k then [c] else [])) := by
  induction ks with
  | nil => cases hmem
  | cons k0 ks ih =>
    rw [List.map_cons, List.map_cons]
    show addToGroups ((k0, g k0) :: _) c = _
    rw [addToGroups]
    by_cases h0 : k0 = c.cleaned_name
    · rw [if_pos h0, if_pos h0.symm]
      refine congrArg (List.cons _) ?_
      refine (List.map_congr_left ?_).symm
      intro k hk
      have hne : c.cleaned_name ≠ k := by
        rintro rfl
        rw [h0] at hnd
        exact (List.nodup_cons.mp hnd).1 hk
      rw [if_neg hne, List.append_nil]
    · rw [if_neg h0, if_neg (fun he => h0 he.symm), List.append_nil]
      refine congrArg (List.cons _) ?_
      have hmem' : c.cleaned_name ∈ ks := by
        rcases List.mem_cons.mp hmem with he | hm
        · exact absurd he.symm h0
        · exact hm
      exact ih hmem' (List.nodup_cons.mp hnd).2

theorem addToGroups_new_key (ks : List (List Char)) (g : List Char → List Company)
    (c : Company) (hmem : c.cleaned_name ∉ ks) :
    addToGroups (ks.map (fun k => (k, g k))) c =
      ks.map (fun k => (k, g k)) ++ [(c.cleaned_name, [c])] := by
  induction ks with
  | nil => rfl
  | cons k0 ks ih =>
    rw [List.map_cons]
    show addToGroups ((k0, g k0) :: _) c = _
    rw [addToGroups]
    have h0 : k0 ≠ c.cleaned_name := by
      rintro rfl
      exact hmem (List.mem_cons_self _ _)
    rw [if_neg h0]
    exact congrArg (List.cons _) (ih (fun hm => hmem (List.mem_cons_of_mem _ hm)))

theorem keyFilter_append_singleton (cs : List Company) (c : Company)
    (k : List Char) :
    keyFilter (cs ++ [c]) k =
      keyFilter cs k ++ if c.cleaned_name = k then [c] else [] := by
  unfold keyFilter
  rw [List.filter_append]
  refine congrArg (keyFilter cs k ++ ·) ?_
  by_cases h : c.cleaned_name = k
  · simp [h]
  · simp [h]

/-- The defaultdict built by _find_duplicates_ is exactly: one entry per
distinct cleaned name in first-occurrence order, holding the companies with
that cleaned name in input order. -/
theorem groupCompanies_eq (cs : List Company) :
    groupCompanies cs = (seenKeys cs).map (fun k => (k, keyFilter cs k)) := by
  induction cs using List.reverseRecOn with
  | nil => rfl
  | append_singleton cs c ih =>
    have hgc : groupCompanies (cs ++ [c]) = addToGroups (groupCompanies cs) c := by
      unfold groupCompanies
      rw [List.foldl_append, List.foldl_cons, List.foldl_nil]
    have hsk : seenKeys (cs ++ [c]) = insertKey (seenKeys cs) c.cleaned_name := by
      unfold seenKeys
      rw [List.foldl_append, List.foldl_cons, List.foldl_nil]
    rw [hgc, hsk, ih]
    by_cases h : c.cleaned_name ∈ seenKeys cs
    · rw [insertKey, if_pos h, addToGroups_mem_key _ _ _ h (nodup_seenKeys cs)]
      refine (List.map_congr_left ?_).symm
      intro k hk
      rw [keyFilter_append_singleton]
    · rw [insertKey, if_neg h, addToGroups_new_key _ _ _ h, List.map_append]
      congr 1
      · refine (List.map_congr_left ?_).symm
        intro k hk
        have hne : c.cleaned_name ≠ k := by
          rintro rfl
          exact h hk
        rw [keyFilter_append_singleton, if_neg hne, List.append_nil]
      · rw [List.map_cons, List.map_nil, keyFilter_append_singleton, if_pos rfl]
        have hnil : keyFilter cs c.cleaned_name = [] := by
          rw [keyFilter, List.filter_eq_nil_iff]
          intro a ha hk
          refine h ((mem_seenKeys cs c.cleaned_name).mpr ⟨a, ha, ?_⟩)
          exact of_decide_eq_true hk
        rw [hnil, List.nil_append]

/-- C7: group members appear in the order their records were encountered,
and the groups are iterated in the order in which each distinct canonical
key was first encountered; the retained groups are exactly the
first-occurrence-ordered key groups of size at least two, not sorted by key
or by size. -/
theorem group_order (cs : List Company) :
    findDupGroups cs =
      ((seenKeys cs).map (fun k => keyFilter cs k)).filter
        (fun g => decide (1 < g.length)) := by
  unfold findDupGroups
  rw [groupCompanies_eq, List.map_map]
  rfl

theorem mem_pairsOf_components {p : α × α} {g : List α}
    (h : p ∈ pairsOf g) : p.1 ∈ g ∧ p.2 ∈ g := by
  induction g with
  | nil => cases h
  | cons x xs ih =>
    rcases List.mem_append.mp h with hl | hr
    · obtain ⟨y, hy, he⟩ := List.mem_map.mp hl
      rw [← he]
      exact ⟨List.mem_cons_self _ _, List.mem_cons_of_mem _ hy⟩
    · obtain ⟨h1, h2⟩ := ih hr
      exact ⟨List.mem_cons_of_mem _ h1, List.mem_cons_of_mem _ h2⟩

theorem retained_key_not_single (cs : List Company) (k : List Char)
    (hk : (keyFilter cs k).length = 1) :
    ∀ g ∈ findDupGroups cs, ∀ c ∈ g, c.cleaned_name ≠ k := by
  intro g hg c hc hck
  rw [group_order] at hg
  obtain ⟨hgm, hglen⟩ := List.mem_filter.mp hg
  obtain ⟨k', hk', hgk⟩ := List.mem_map.mp hgm
  have hck' : c.cleaned_name = k' := by
    rw [← hgk] at hc
    exact of_decide_eq_true (List.mem_filter.mp hc).2
  rw [hck] at hck'
  subst hck'
  rw [hgk] at hk
  rw [hk] at hglen
  exact absurd (of_decide_eq_true hglen) (by omega)

/-- C4: grouping keeps only groups with at least two members; a canonical
key occurring on exactly one record appears in no retained group, and the
unique record of such a key occurs in no emitted pair. -/
theorem singleton_groups_dropped (cs : List Company) :
    (∀ g ∈ findDupGroups cs, 2 ≤ g.length) ∧
      (∀ k : List Char, (keyFilter cs k).length = 1 →
        (∀ g ∈ findDupGroups cs, ∀ c ∈ g, c.cleaned_name ≠ k) ∧
          (∀ c ∈ keyFilter cs k,
            ∀ p ∈ (findDupGroups cs).flatMap pairsOf, p.1 ≠ c ∧ p.2 ≠ c)) := by
  constructor
  · intro g hg
    have h := (List.mem_filter.mp hg).2
    have h' := of_decide_eq_true h
    omega
  · intro k hk
    refine ⟨retained_key_not_single cs k hk, ?_⟩
    intro c hc p hp
    have hck : c.cleaned_name = k :=
      of_decide_eq_true (List.mem_filter.mp hc).2
    obtain ⟨g, hg, hpg⟩ := List.mem_flatMap.mp hp
    obtain ⟨h1, h2⟩ := mem_pairsOf_components hpg
    constructor
    · rintro rfl
      exact retained_key_not_single cs k hk g hg p.1 h1 hck
    · rintro rfl
      exact retained_key_not_single cs k hk g hg p.2 h2 hck

/-- A four-record list whose key x occurs exactly once, used to instantiate
the singleton-dropping theorem. -/
def wCs4 : List Company :=
  [⟨"a".toList, "x".toList⟩, ⟨"b".toList, "y".toList⟩,
    ⟨"c".toList, "y".toList⟩, ⟨"d".toList, "y".toList⟩]

/-- Witness for the singleton-dropping theorem: in wCs4 the single record
with key x is in no retained group and no emitted pair. -/
theorem singleton_groups_dropped_witness :
    (keyFilter wCs4 "x".toList).length = 1 ∧
      (⟨"b".toList, "y".toList⟩ : Company).cleaned_name ≠ "x".toList ∧
      ((⟨"c".toList, "y".toList⟩, ⟨"d".toList, "y".toList⟩) : Company × Company).1
        ≠ ⟨"a".toList, "x".toList⟩ := by
  refine ⟨by decide, ?_, ?_⟩
  · exact ((singleton_groups_dropped wCs4).2 "x".toList (by decide)).1
      [⟨"b".toList, "y".toList⟩, ⟨"c".toList, "y".toList⟩, ⟨"d".toList, "y".toList⟩]
      (by decide) ⟨"b".toList, "y".toList⟩ (by decide)
  · exact (((singleton_groups_dropped wCs4).2 "x".toList (by decide)).2
      ⟨"a".toList, "x".toList⟩ (by decide)
      (⟨"c".toList, "y".toList⟩, ⟨"d".toList, "y".toList⟩) (by decide)).1

theorem sublist_pair_mem_pairsOf {a b : α} {g : List α}
    (h : [a, b].Sublist g) : (a, b) ∈ pairsOf g := by
  induction g with
  | nil => cases h
  | cons x xs ih =>
    cases h with
    | cons _ h' =>
      exact List.mem_append_right _ (ih h')
    | cons₂ _ h' =>
      refine List.mem_append_left _ ?_
      exact List.mem_map.mpr ⟨b, List.singleton_sublist.mp h', rfl⟩

/-- C6: two input records whose names both normalize to the empty string are
placed in the same retained group and emitted together as a pair, and the
rendered pair line appears in the pipeline output. -/
theorem empty_key_grouped (rw : List (List Char)) (ls : List (List Char))
    (c1 c2 : Company) (pre mid suf : List Company)
    (hcs : read_companies rw ls = pre ++ c1 :: (mid ++ c2 :: suf))
    (h1 : c1.cleaned_name = []) (h2 : c2.cleaned_name = []) :
    (∃ g ∈ findDupGroups (read_companies rw ls),
        c1 ∈ g ∧ c2 ∈ g ∧ (c1, c2) ∈ pairsOf g) ∧
      renderPair (c1, c2) ∈ find_duplicates rw ls := by
  set cs := read_companies rw ls with hcsdef
  have hsub : [c1, c2].Sublist cs := by
    rw [hcs]
    have t1 : [c2].Sublist (mid ++ c2 :: suf) :=
      (List.Sublist.cons₂ c2 (List.nil_sublist suf)).trans
        (List.sublist_append_right mid (c2 :: suf))
    have t2 : [c1, c2].Sublist (c1 :: (mid ++ c2 :: suf)) :=
      List.Sublist.cons₂ c1 t1
    exact t2.trans (List.sublist_append_right pre _)
  have hfil : [c1, c2].filter (fun c => decide (c.cleaned_name = ([] : List Char)))
      = [c1, c2] := by
    simp [h1, h2]
  have hg12 : [c1, c2].Sublist (keyFilter cs []) := by
    have := hsub.filter (fun c => decide (c.cleaned_name = ([] : List Char)))
    rwa [hfil] at this
  have hc1 : c1 ∈ keyFilter cs [] := hg12.subset (by simp)
  have hc2 : c2 ∈ keyFilter cs [] := hg12.subset (by simp)
  have hseen : ([] : List Char) ∈ seenKeys cs := by
    refine (mem_seenKeys cs []).mpr ⟨c1, ?_, h1⟩
    exact hsub.subset (by simp)
  have hlen : 1 < (keyFilter cs []).length := by
    have := hg12.length_le
    simp only [List.length_cons, List.length_singleton] at this
    omega
  have hgmem : keyFilter cs [] ∈ findDupGroups cs := by
    rw [group_order]
    refine List.mem_filter.mpr ⟨List.mem_map.mpr ⟨[], hseen, rfl⟩, ?_⟩
    exact decide_eq_true hlen
  have hpair : (c1, c2) ∈ pairsOf (keyFilter cs []) :=
    sublist_pair_mem_pairsOf hg12
  refine ⟨⟨keyFilter cs [], hgmem, hc1, hc2, hpair⟩, ?_⟩
  show renderPair (c1, c2) ∈ writeLines (findDupGroups cs)
  exact List.mem_flatMap.mpr
    ⟨keyFilter cs [], hgmem, List.mem_map.mpr ⟨(c1, c2), hpair, rfl⟩⟩

/-- Witness for the empty-key theorem: the inputs inc and Inc. both
normalize to the empty string with removal word inc, and the pair line is
emitted. -/
theorem empty_key_grouped_witness :
    (∃ g ∈ findDupGroups (read_companies ["inc".toList]
        ["inc".toList, "Inc.".toList]),
      (⟨"inc".toList, []⟩ : Company) ∈ g ∧ (⟨"Inc.".toList, []⟩ : Company) ∈ g ∧
        ((⟨"inc".toList, []⟩ : Company), (⟨"Inc.".toList, []⟩ : Company))
          ∈ pairsOf g) ∧
      renderPair (⟨"inc".toList, []⟩, ⟨"Inc.".toList, []⟩)
        ∈ find_duplicates ["inc".toList] ["inc".toList, "Inc.".toList] :=
  empty_key_grouped ["inc".toList] ["inc".toList, "Inc.".toList]
    ⟨"inc".toList, []⟩ ⟨"Inc.".toList, []⟩ [] [] [] (by decide) rfl rfl

theorem toNat_ofNat_of_lt (n : Nat) (h : n < 55296) : (Char.ofNat n).toNat = n := by
  rw [Char.ofNat, dif_pos (Or.inl h)]
  rfl

theorem lowerChar_eq_self (c : Char) (h : ¬(65 ≤ c.toNat ∧ c.toNat ≤ 90)) :
    lowerChar c = c := by
  rw [lowerChar, if_neg h]

theorem lowerChar_toNat_of_upper (c : Char) (h : 65 ≤ c.toNat ∧ c.toNat ≤ 90) :
    (lowerChar c).toNat = c.toNat + 32 := by
  rw [lowerChar, if_pos h, toNat_ofNat_of_lt]
  omega

theorem lowerChar_idem (c : Char) : lowerChar (lowerChar c) = lowerChar c := by
  by_cases h : 65 ≤ c.toNat ∧ c.toNat ≤ 90
  · have h1 := lowerChar_toNat_of_upper c h
    exact lowerChar_eq_self (lowerChar c) (by omega)
  · rw [lowerChar_eq_self c h]
    exact lowerChar_eq_self c h

theorem lowerChar_fixed_of_mem_pyLower {c : Char} {s : List Char}
    (h : c ∈ pyLower s) : lowerChar c = c := by
  obtain ⟨d, _, rfl⟩ := List.mem_map.mp h
  exact lowerChar_idem d

theorem stripUrl_subset (l : List Char) : ∀ c ∈ stripUrl l, c ∈ l := by
  induction l using stripUrl.induct with
  | case1 rest ih =>
    intro d hd
    rw [stripUrl] at hd
    exact List.mem_cons_of_mem _ (List.mem_cons_of_mem _
      (List.mem_cons_of_mem _ (List.mem_cons_of_mem _ (ih d hd))))
  | case2 rest ih =>
    intro d hd
    rw [stripUrl] at hd
    exact List.mem_cons_of_mem _ (List.mem_cons_of_mem _
      (List.mem_cons_of_mem _ (List.mem_cons_of_mem _ (ih d hd))))
  | case3 rest ih =>
    intro d hd
    rw [stripUrl] at hd
    exact List.mem_cons_of_mem _ (List.mem_cons_of_mem _
      (List.mem_cons_of_mem _ (List.mem_cons_of_mem _ (ih d hd))))
  | case4 rest ih =>
    intro d hd
    rw [stripUrl] at hd
    exact List.mem_cons_of_mem _ (List.mem_cons_of_mem _
      (List.mem_cons_of_mem _ (List.mem_cons_of_mem _ (ih d hd))))
  | case5 c rest h1 h2 h3 h4 ih =>
    intro d hd
    rw [stripUrl] at hd
    case x_1 => exact h1
    case x_2 => exact h2
    case x_3 => exact h3
    case x_4 => exact h4
    rcases List.mem_cons.mp hd with rfl | hm
    · exact List.mem_cons_self _ _
    · exact List.mem_cons_of_mem _ (ih d hm)
  | case6 =>
    intro d hd
    cases hd

theorem stripUrl_no_dot (l : List Char) (h : ∀ c ∈ l, c ≠ '.') :
    stripUrl l = l := by
  induction l using stripUrl.induct with
  | case1 rest ih =>
    exact absurd rfl (h '.' (by simp))
  | case2 rest ih =>
    exact absurd rfl (h '.' (by simp))
  | case3 rest ih =>
    exact absurd rfl (h '.' (by simp))
  | case4 rest ih =>
    exact absurd rfl (h '.' (by simp))
  | case5 c rest h1 h2 h3 h4 ih =>
    rw [stripUrl]
    case x_1 => exact h1
    case x_2 => exact h2
    case x_3 => exact h3
    case x_4 => exact h4
    exact congrArg (List.cons c)
      (ih (fun d hd => h d (List.mem_cons_of_mem _ hd)))
  | case6 => rfl

theorem mem_subPunct {c : Char} {s : List Char} (h : c ∈ subPunct s) :
    (isWordChar c || isSpaceChar c) = true ∧ (c = ' ' ∨ c ∈ s) := by
  obtain ⟨d, hd, rfl⟩ := List.mem_map.mp h
  by_cases hw : (isWordChar d || isSpaceChar d) = true
  · rw [if_pos hw]
    exact ⟨hw, Or.inr hd⟩
  · rw [if_neg hw]
    exact ⟨by decide, Or.inl rfl⟩

theorem subPunct_eq_self (l : List Char)
    (h : ∀ c ∈ l, (isWordChar c || isSpaceChar c) = true) :
    subPunct l = l := by
  rw [subPunct]
  have he := List.map_congr_left
    (f := fun c => if isWordChar c || isSpaceChar c then c else ' ') (g := id)
    (fun c hc => if_pos (h c hc))
  rw [he, List.map_id]

theorem pySplitAux_ne_nil (s : List Char) :
    ∀ acc, ∀ w ∈ pySplitAux s acc, w ≠ [] := by
  induction s with
  | nil =>
    intro acc w hw
    rw [pySplitAux] at hw
    split at hw
    · cases hw
    · rename_i h
      rcases List.mem_singleton.mp hw with rfl
      simpa using h
  | cons c cs ih =>
    intro acc w hw
    cases hcv : isSpaceChar c with
    | false =>
      rw [pySplitAux, hcv] at hw
      exact ih (c :: acc) w (by simpa using hw)
    | true =>
      rw [pySplitAux, hcv] at hw
      simp only [if_true] at hw
      split at hw
      · exact ih [] w hw
      · rename_i h
        rcases List.mem_cons.mp hw with rfl | hw'
        · simpa using h
        · exact ih [] w hw'

theorem pySplitAux_mem (s : List Char) :
    ∀ acc, ∀ w ∈ pySplitAux s acc, ∀ c ∈ w, c ∈ s ∨ c ∈ acc := by
  induction s with
  | nil =>
    intro acc w hw c hc
    rw [pySplitAux] at hw
    split at hw
    · cases hw
    · rcases List.mem_singleton.mp hw with rfl
      exact Or.inr (List.mem_reverse.mp hc)
  | cons c0 cs ih =>
    intro acc w hw c hc
    cases hcv : isSpaceChar c0 with
    | false =>
      rw [pySplitAux, hcv] at hw
      simp only [Bool.false_eq_true, if_false] at hw
      rcases ih (c0 :: acc) w hw c hc with hs | ha
      · exact Or.inl (List.mem_cons_of_mem _ hs)
      · rcases List.mem_cons.mp ha with rfl | ha'
        · exact Or.inl (List.mem_cons_self _ _)
        · exact Or.inr ha'
    | true =>
      rw [pySplitAux, hcv] at hw
      simp only [if_true] at hw
      have hgo : ∀ w ∈ pySplitAux cs [], ∀ c ∈ w, c ∈ c0 :: cs ∨ c ∈ acc := by
        intro w' hw' c' hc'
        rcases ih [] w' hw' c' hc' with hs | ha
        · exact Or.inl (List.mem_cons_of_mem _ hs)
        · cases ha
      split at hw
      · exact hgo w hw c hc
      · rcases List.mem_cons.mp hw with rfl | hw'
        · exact Or.inr (List.mem_reverse.mp hc)
        · exact hgo w hw' c hc

theorem pySplitAux_nonspace (s : List Char) :
    ∀ acc, (∀ c ∈ acc, isSpaceChar c = false) →
      ∀ w ∈ pySplitAux s acc, ∀ c ∈ w, isSpaceChar c = false := by
  induction s with
  | nil =>
    intro acc hacc w hw c hc
    rw [pySplitAux] at hw
    split at hw
    · cases hw
    · rcases List.mem_singleton.mp hw with rfl
      exact hacc c (List.mem_reverse.mp hc)
  | cons c0 cs ih =>
    intro acc hacc w hw c hc
    cases hcv : isSpaceChar c0 with
    | false =>
      rw [pySplitAux, hcv] at hw
      simp only [Bool.false_eq_true, if_false] at hw
      have hacc' : ∀ c ∈ c0 :: acc, isSpaceChar c = false := by
        intro d hd
        rcases List.mem_cons.mp hd with rfl | hd'
        · exact hcv
        · exact hacc d hd'
      exact ih (c0 :: acc) hacc' w hw c hc
    | true =>
      rw [pySplitAux, hcv] at hw
      simp only [if_true] at hw
      split at hw
      · exact ih [] (by intro d hd; cases hd) w hw c hc
      · rcases List.mem_cons.mp hw with rfl | hw'
        · exact hacc c (List.mem_reverse.mp hc)
        · exact ih [] (by intro d hd; cases hd) w hw' c hc

theorem pySplit_ne_nil (s : List Char) : ∀ w ∈ pySplit s, w ≠ [] :=
  pySplitAux_ne_nil s []

theorem pySplit_chars (s : List Char) :
    ∀ w ∈ pySplit s, ∀ c ∈ w, c ∈ s ∧ isSpaceChar c = false := by
  intro w hw c hc
  constructor
  · rcases pySplitAux_mem s [] w hw c hc with hs | ha
    · exact hs
    · cases ha
  · exact pySplitAux_nonspace s [] (by intro d hd; cases hd) w hw c hc

theorem pySplitAux_append_token (w : List Char)
    (hw : ∀ c ∈ w, isSpaceChar c = false) :
    ∀ rest acc, pySplitAux (w ++ rest) acc = pySplitAux rest (w.reverse ++ acc) := by
  induction w with
  | nil =>
    intro rest acc
    simp
  | cons c cs ih =>
    intro rest acc
    have hc : isSpaceChar c = false := hw c (List.mem_cons_self _ _)
    rw [List.cons_append, pySplitAux, hc]
    simp only [Bool.false_eq_true, if_false]
    rw [ih (fun d hd => hw d (List.mem_cons_of_mem _ hd)) rest (c :: acc)]
    simp

theorem pySplit_joinSp (ws : List (List Char))
    (hne : ∀ w ∈ ws, w ≠ [])
    (hns : ∀ w ∈ ws, ∀ c ∈ w, isSpaceChar c = false) :
    pySplit (joinSp ws) = ws := by
  induction ws with
  | nil => rfl
  | cons w ws ih =>
    have hwns : ∀ c ∈ w, isSpaceChar c = false :=
      hns w (List.mem_cons_self _ _)
    have hwne : w ≠ [] := hne w (List.mem_cons_self _ _)
    cases ws with
    | nil =>
      show pySplit (joinSp [w]) = [w]
      have hj : joinSp [w] = w := rfl
      rw [hj, pySplit]
      have := pySplitAux_append_token w hwns [] []
      rw [List.append_nil] at this
      rw [this, pySplitAux, if_neg (by simpa using hwne)]
      simp
    | cons w2 ws2 =>
      have hj : joinSp (w :: w2 :: ws2) = w ++ ' ' :: joinSp (w2 :: ws2) := rfl
      rw [hj, pySplit, pySplitAux_append_token w hwns _ []]
      rw [List.append_nil, pySplitAux]
      have hsp : isSpaceChar ' ' = true := by decide
      rw [hsp]
      simp only [if_true]
      rw [if_neg (by simpa using hwne)]
      rw [List.reverse_reverse]
      refine congrArg (List.cons w) ?_
      exact ih (fun u hu => hne u (List.mem_cons_of_mem _ hu))
        (fun u hu => hns u (List.mem_cons_of_mem _ hu))

theorem mem_joinSp {c : Char} {ws : List (List Char)} (h : c ∈ joinSp ws) :
    c = ' ' ∨ ∃ w ∈ ws, c ∈ w := by
  induction ws with
  | nil => cases h
  | cons w ws ih =>
    cases ws with
    | nil =>
      exact Or.inr ⟨w, List.mem_cons_self _ _, h⟩
    | cons w2 ws2 =>
      have hj : joinSp (w :: w2 :: ws2) = w ++ ' ' :: joinSp (w2 :: ws2) := rfl
      rw [hj] at h
      rcases List.mem_append.mp h with hl | hr
      · exact Or.inr ⟨w, List.mem_cons_self _ _, hl⟩
      · rcases List.mem_cons.mp hr with rfl | hr'
        · exact Or.inl rfl
        · rcases ih hr' with hsp | ⟨u, hu, hcu⟩
          · exact Or.inl hsp
          · exact Or.inr ⟨u, List.mem_cons_of_mem _ hu, hcu⟩

/-- Every surviving token of _clean_name_ is nonempty, consists of
lowercase-fixed word characters that are not whitespace, and is not a
removal word. -/
theorem normTokens_props (rw : List (List Char)) (x : List Char) :
    ∀ w ∈ normTokens rw x, w ≠ [] ∧
      (∀ c ∈ w, isWordChar c = true ∧ isSpaceChar c = false ∧ lowerChar c = c) ∧
      decide (w ∉ rw) = true := by
  intro w hw
  rw [normTokens] at hw
  obtain ⟨hw1, hw2⟩ := List.mem_filter.mp hw
  refine ⟨pySplit_ne_nil _ w hw1, ?_, hw2⟩
  intro c hc
  obtain ⟨hmem, hnspace⟩ := pySplit_chars _ w hw1 c hc
  obtain ⟨hwos, hor⟩ := mem_subPunct hmem
  have hword : isWordChar c = true := by
    rcases Bool.or_eq_true_iff.mp hwos with hh | hh
    · exact hh
    · rw [hh] at hnspace
      cases hnspace
  have hfix : lowerChar c = c := by
    rcases hor with rfl | hmem2
    · exact absurd hnspace (by decide)
    · exact lowerChar_fixed_of_mem_pyLower (stripUrl_subset _ c hmem2)
  exact ⟨hword, hnspace, hfix⟩

/-- C3: normalization is idempotent for every string and every removal-word
set. -/
theorem clean_name_idem (rw : List (List Char)) (x : List Char) :
    clean_name rw (clean_name rw x) = clean_name rw x := by
  have hprops := normTokens_props rw x
  set ws := normTokens rw x with hws
  have hne : ∀ w ∈ ws, w ≠ [] := fun w hw => (hprops w hw).1
  have hns : ∀ w ∈ ws, ∀ c ∈ w, isSpaceChar c = false :=
    fun w hw c hc => ((hprops w hw).2.1 c hc).2.1
  have hchar : ∀ c ∈ joinSp ws,
      (isWordChar c || isSpaceChar c) = true ∧ lowerChar c = c ∧ c ≠ '.' := by
    intro c hc
    rcases mem_joinSp hc with rfl | ⟨w, hw, hcw⟩
    · exact ⟨by decide, by decide, by decide⟩
    · obtain ⟨hword, hspace, hfix⟩ := (hprops w hw).2.1 c hcw
      refine ⟨by rw [hword]; rfl, hfix, ?_⟩
      rintro rfl
      exact absurd hword (by decide)
  show joinSp (normTokens rw (joinSp ws)) = joinSp ws
  have h1 : pyLower (joinSp ws) = joinSp ws := by
    rw [pyLower]
    have he := List.map_congr_left (f := lowerChar) (g := id)
      (fun c hc => (hchar c hc).2.1)
    rw [he, List.map_id]
  have h2 : stripUrl (joinSp ws) = joinSp ws :=
    stripUrl_no_dot _ (fun c hc => (hchar c hc).2.2)
  have h3 : subPunct (joinSp ws) = joinSp ws :=
    subPunct_eq_self _ (fun c hc => (hchar c hc).1)
  have h4 : pySplit (joinSp ws) = ws := pySplit_joinSp ws hne hns
  have h5 : ws.filter (fun w => decide (w ∉ rw)) = ws :=
    List.filter_eq_self.mpr (fun w hw => (hprops w hw).2.2)
  rw [normTokens, h1, h2, h3, h4, h5]

/-- w occurs as a contiguous substring of t. -/
def occursIn (w t : List Char) : Prop := ∃ pre suf, t = pre ++ w ++ suf

/-- C5 counterexample: with removal-word set containing inc and
incorporated, the removal word inc occurs as a proper substring of the token
incorporated and differs from it, yet the token does not survive
normalization (the whole token equals the other removal word), so the claim
as stated fails at this input. -/
theorem removal_substring_counterexample :
    "inc".toList ∈ ["inc".toList, "incorporated".toList] ∧
      occursIn "inc".toList "incorporated".toList ∧
      "inc".toList ≠ "incorporated".toList ∧
      "incorporated".toList ∈
        pySplit (subPunct (stripUrl (pyLower "incorporated".toList))) ∧
      "incorporated".toList ∉
        normTokens ["inc".toList, "incorporated".toList] "incorporated".toList ∧
      clean_name ["inc".toList, "incorporated".toList] "incorporated".toList
        = [] := by
  refine ⟨by decide, ⟨[], "orporated".toList, by decide⟩, by decide, by decide,
    by decide, by decide⟩

/-- C5 (amended): a removal word that occurs as a proper substring of a
token but is not equal to the whole token causes no removal, and the token
survives normalization provided the whole token is not itself a member of
the removal-word set. -/
theorem removal_exact_token_only (rw : List (List Char)) (name : List Char)
    (w t : List Char) (hw : w ∈ rw) (hsub : occursIn w t) (hne : w ≠ t)
    (htok : t ∈ pySplit (subPunct (stripUrl (pyLower name))))
    (hnotrw : t ∉ rw) :
    t ∈ normTokens rw name := by
  rw [normTokens]
  exact List.mem_filter.mpr ⟨htok, decide_eq_true hnotrw⟩

/-- Witness for the amended claim: with removal word inc alone, the token
incorporated survives normalization. -/
theorem removal_exact_token_only_witness :
    "incorporated".toList ∈ normTokens ["inc".toList] "incorporated".toList :=
  removal_exact_token_only ["inc".toList] "incorporated".toList "inc".toList
    "incorporated".toList (by decide) ⟨[], "orporated".toList, by decide⟩
    (by decide) (by decide) (by decide)

/-- C9: normalization is total: for every input string and removal-word set,
_clean_name_ returns a string, made of word characters and single spaces;
the embedding is a total function, so no exception can arise. -/
theorem clean_name_total (rw : List (List Char)) (x : List Char) :
    ∃ y : List Char, clean_name rw x = y ∧
      ∀ c ∈ y, isWordChar c = true ∨ c = ' ' := by
  refine ⟨clean_name rw x, rfl, ?_⟩
  intro c hc
  rw [clean_name] at hc
  rcases mem_joinSp hc with rfl | ⟨w, hw, hcw⟩
  · exact Or.inr rfl
  · exact Or.inl ((normTokens_props rw x w hw).2.1 c hcw).1

/-- C10: a removal-word entry that is the empty string or contains a
whitespace character can never match a token, so adding it to or removing it
from the removal-word set leaves the normalized output unchanged for every
input name. -/
theorem inert_removal_entry (rw : List (List Char)) (w : List Char)
    (x : List Char) (hw : w = [] ∨ ∃ c ∈ w, isSpaceChar c = true) :
    clean_name (w :: rw) x = clean_name rw x := by
  rw [clean_name, clean_name, normTokens, normTokens]
  refine congrArg joinSp (List.filter_congr ?_)
  intro t ht
  have hne : t ≠ [] := pySplit_ne_nil _ t ht
  have hns : ∀ c ∈ t, isSpaceChar c = false :=
    fun c hc => (pySplit_chars _ t ht c hc).2
  have htw : t ≠ w := by
    rcases hw with rfl | ⟨c, hcw, hcs⟩
    · exact hne
    · rintro rfl
      rw [hns c hcw] at hcs
      cases hcs
  refine decide_eq_decide.mpr ?_
  constructor
  · intro h hm
    exact h (List.mem_cons_of_mem _ hm)
  · intro h hm
    rcases List.mem_cons.mp hm with rfl | hm'
    · exact htw rfl
    · exact h hm'

/-- Witness for the inert-entry theorem: adding a whitespace-only entry
changes nothing on a concrete name. -/
theorem inert_removal_entry_witness :
    clean_name [" ".toList] "a b".toList = clean_name [] "a b".toList :=
  inert_removal_entry [] " ".toList "a b".toList
    (Or.inr ⟨' ', by decide, by decide⟩)

end DupFinder
